import Mathlib

/-!
Verification of the `minilzo-rs` wrapper together with the LZO1X-style codec
it drives.  The wrapper (`src/lib.rs`) contains the error-code translation
table and the result policies of `compress` / `decompress`; those definitions
are translated directly from the Rust source.  The codec engine itself lives
in the pre-built `minilzo` library and is not part of the repository's
sources, so it is modelled from the specification: a byte-oriented LZ77
instruction stream with literal runs, back-reference matches carrying a
`(distance, length)` pair in short and long variable-width forms, a
distinguished end-of-stream instruction, and a decoder that checks every
read and write bound before performing it.  Following the specification's
design notes, the instruction tiering is modelled as an explicit
tagged-instruction state machine whose exact tie-break constants are fixed
here as self-consistent design choices.

Bytes are modelled as natural numbers; every value the encoder emits into
the stream is below 256 by construction.
-/

/-- Translated from `src/lib.rs` lines 23-38: the closed enumeration of
failure kinds exposed by the wrapper. -/
inductive Error : Type
  | Error
  | OutOfMemory
  | NotCompressible
  | InputOverrun
  | OutputOverrun
  | LookbehindOverrun
  | EOFNotFound
  | InputNotConsumed
  | NotYetImplemented
  | InvalidArgument
  | InvalidAlignment
  | OutputNotConsumed
  | InternalError
deriving DecidableEq

/-- Alias for the failure-kind enumeration, usable inside the `Error`
namespace where the bare name would resolve to the first constructor. -/
abbrev ErrorT := Error

/-- Translated from `src/lib.rs` lines 41-58: the error-code-to-enum
translation table, with the catch-all default mapping to `Error.Error`. -/
def Error.from_code (code : Int) : ErrorT :=
  if code = -1 then Error.Error
  else if code = -2 then Error.OutOfMemory
  else if code = -3 then Error.NotCompressible
  else if code = -4 then Error.InputOverrun
  else if code = -5 then Error.OutputOverrun
  else if code = -6 then Error.LookbehindOverrun
  else if code = -7 then Error.EOFNotFound
  else if code = -8 then Error.InputNotConsumed
  else if code = -9 then Error.NotYetImplemented
  else if code = -10 then Error.InvalidArgument
  else if code = -11 then Error.InvalidAlignment
  else if code = -12 then Error.OutputNotConsumed
  else if code = -99 then Error.InternalError
  else Error.Error

/-- Modelled from the spec: the tagged-instruction intermediate
representation of the wire format (spec section 9) — a literal run carrying
its bytes, or a match carrying a `(distance, length)` back-reference. -/
inductive Instr : Type
  | lit (bs : List Nat)
  | mat (d l : Nat)

/-- Modelled from the spec: variable-width length-extension encoding.  A
count `k` is written as `k / 255` continuation bytes of value 255 followed
by one terminating byte `k % 255`. -/
def encExt (k : Nat) : List Nat :=
  List.replicate (k / 255) 255 ++ [k % 255]

/-- Modelled from the spec: reader of the length-extension encoding.  Each
255 byte adds 255 to the count; the first byte below 255 terminates.
Returns `none` when the stream ends mid-extension. -/
def decExt : List Nat → Option (Nat × List Nat)
  | [] => none
  | b :: rest =>
    if b = 255 then (decExt rest).map (fun pr => (pr.1 + 255, pr.2)) else some (b, rest)

/-- Modelled from the spec: byte-at-a-time backward copy used for matches.
Overlapping copies (distance < length) are legal and expand repeated
patterns, exactly as the spec requires. -/
def matchCopy : List Nat → Nat → Nat → List Nat
  | out, _, 0 => out
  | out, d, l + 1 => matchCopy (out ++ [out.getD (out.length - d) 0]) d l

/-- Modelled from the spec: serialization of one instruction.  Literal runs
of length 1-15 use a direct tag; longer runs use escape tag 0 plus a length
extension.  Matches of length 3-8 with distance up to 2048 use the two-byte
short form; all others use the long form (tag 32, a length extension, and
two distance bytes).  The encoder always emits the smallest legal form. -/
def serInstr : Instr → List Nat
  | Instr.lit bs =>
    if bs.length ≤ 15 then bs.length :: bs
    else 0 :: (encExt (bs.length - 16) ++ bs)
  | Instr.mat d l =>
    if 3 ≤ l ∧ l ≤ 8 ∧ d ≤ 2048 then
      [64 + (l - 3) * 8 + (d - 1) % 8, (d - 1) / 8]
    else
      32 :: (encExt (l - 3) ++ [(d - 1) % 256, (d - 1) / 256])

/-- Modelled from the spec: the distinguished three-byte end-of-stream
instruction that terminates every compressed stream. -/
def endMark : List Nat := [16, 0, 0]

/-- Modelled from the spec: serialization of a whole instruction list,
terminated by the end-of-stream instruction. -/
def serialize (instrs : List Instr) : List Nat :=
  (instrs.map serInstr).flatten ++ endMark

/-- Modelled from the spec: the decoder state machine (spec section 4.2).
One fuel unit is spent per instruction; every extension-byte read, literal
copy, match source position and match destination is checked against the
remaining input, the produced output and the caller-declared expected
length before the corresponding operation is performed. -/
def decodeLoop : Nat → List Nat → List Nat → Nat → Except Error (List Nat)
  | 0, _, _, _ => Except.error Error.Error
  | _ + 1, [], _, _ => Except.error Error.InputOverrun
  | f + 1, t :: ins1, out, exp =>
    if t = 16 then
      match ins1 with
      | a :: b :: ins2 =>
        if a = 0 ∧ b = 0 then
          if out.length = exp then
            match ins2 with
            | [] => Except.ok out
            | _ :: _ => Except.error Error.InputNotConsumed
          else Except.error Error.OutputNotConsumed
        else Except.error Error.Error
      | _ => Except.error Error.InputOverrun
    else if t ≤ 15 then
      match (if t = 0 then (decExt ins1).map (fun pr => (16 + pr.1, pr.2)) else some (t, ins1)) with
      | none => Except.error Error.InputOverrun
      | some (l, ins2) =>
        if ins2.length < l then Except.error Error.InputOverrun
        else if exp < out.length + l then Except.error Error.OutputOverrun
        else decodeLoop f (ins2.drop l) (out ++ ins2.take l) exp
    else if t = 32 then
      match decExt ins1 with
      | none => Except.error Error.InputOverrun
      | some (e, r) =>
        match r with
        | lo :: hi :: ins2 =>
          if out.length < 1 + lo + 256 * hi then Except.error Error.LookbehindOverrun
          else if exp < out.length + (e + 3) then Except.error Error.OutputOverrun
          else decodeLoop f ins2 (matchCopy out (1 + lo + 256 * hi) (e + 3)) exp
        | _ => Except.error Error.InputOverrun
    else if 64 ≤ t ∧ t ≤ 111 then
      match ins1 with
      | b2 :: ins2 =>
        if out.length < 1 + (t - 64) % 8 + 8 * b2 then Except.error Error.LookbehindOverrun
        else if exp < out.length + ((t - 64) / 8 + 3) then Except.error Error.OutputOverrun
        else decodeLoop f ins2 (matchCopy out (1 + (t - 64) % 8 + 8 * b2) ((t - 64) / 8 + 3)) exp
      | [] => Except.error Error.InputOverrun
    else Except.error Error.Error

/-- Translated from `src/lib.rs` lines 107-126 combined with the modelled
safe decoder: `decompress` runs the bounds-checked decoder on the input with
the caller-declared expected length.  Since every loop iteration consumes at
least one input byte, fuel `input length + 1` is never exhausted. -/
def decompress (ins : List Nat) (newlen : Nat) : Except Error (List Nat) :=
  decodeLoop (ins.length + 1) ins [] newlen

/-- Modelled from the spec: the three-byte candidate test used by the match
finder — a candidate position must agree with the current position on the
format's minimum match length of 3 bytes. -/
def matchAt (arr : List Nat) (p i : Nat) : Prop :=
  arr.getD p 0 = arr.getD i 0 ∧
  arr.getD (p + 1) 0 = arr.getD (i + 1) 0 ∧
  arr.getD (p + 2) 0 = arr.getD (i + 2) 0

instance (arr : List Nat) (p i : Nat) : Decidable (matchAt arr p i) := by
  unfold matchAt; infer_instance

/-- Modelled from the spec: search for the most recent prior occurrence of
the current three bytes, scanning candidate positions downward from `q` and
keeping only candidates within the 65536-byte history window. -/
def findPrevAux (arr : List Nat) (i : Nat) : Nat → Option Nat
  | 0 => if matchAt arr 0 i ∧ i ≤ 65536 then some 0 else none
  | q + 1 =>
    if matchAt arr (q + 1) i ∧ i - (q + 1) ≤ 65536 then some (q + 1)
    else findPrevAux arr i q

/-- Modelled from the spec: forward extension of an accepted match — the
match length grows byte by byte while bytes are equal and within buffer
bounds.  `k` is the extension count so far; the fuel bounds the loop. -/
def extLen : List Nat → Nat → Nat → Nat → Nat → Nat
  | _, _, _, k, 0 => k
  | arr, p, i, k, f + 1 =>
    if i + 3 + k < arr.length ∧ arr.getD (p + 3 + k) 0 = arr.getD (i + 3 + k) 0 then
      extLen arr p i (k + 1) f
    else k

/-- Modelled from the spec: the match finder.  At position `i` it looks for
the most recent prior occurrence of the current three bytes and, when one
exists, extends it forward, returning the `(distance, length)` pair. -/
def findMatch (arr : List Nat) (i : Nat) : Option (Nat × Nat) :=
  match i with
  | 0 => none
  | j + 1 =>
    (findPrevAux arr (j + 1) j).map (fun p => ((j + 1) - p, 3 + extLen arr p (j + 1) 0 arr.length))

/-- Modelled from the spec: flushing the pending literal run covering input
positions `a` (inclusive) to `b` (exclusive) as a literal instruction;
nothing is emitted when the run is empty. -/
def flushLit (arr : List Nat) (a b : Nat) : List Instr :=
  if a < b then [Instr.lit ((arr.drop a).take (b - a))] else []

/-- Modelled from the spec: the greedy encoder scan (spec section 4.1).  At
each position it either accepts a match (flushing the pending literal run
first and skipping past the matched bytes) or extends the pending literal
run by one byte; positions too close to the end to hold a minimum-length
match are literals.  One fuel unit is spent per position examined, so fuel
`input length + 1` is never exhausted. -/
def scanF (arr : List Nat) : Nat → Nat → Nat → List Instr
  | 0, _, l0 => flushLit arr l0 arr.length
  | f + 1, i, l0 =>
    if i < arr.length then
      if i + 3 ≤ arr.length then
        match findMatch arr i with
        | some dl =>
          flushLit arr l0 i ++ (Instr.mat dl.1 dl.2 :: scanF arr f (i + dl.2) (i + dl.2))
        | none => scanF arr f (i + 1) l0
      else scanF arr f (i + 1) l0
    else flushLit arr l0 arr.length

/-- Modelled from the spec: the raw encoder — scan the whole input and
serialize the resulting instruction list.  The underlying compression
routine itself always succeeds; the result policy lives in `compress`. -/
def compressRaw (arr : List Nat) : List Nat :=
  serialize (scanF arr (arr.length + 1) 0 0)

/-- Translated from `src/lib.rs` lines 77-105: `compress` runs the encoder
and applies the wrapper's result policy — the compressed stream is returned
unless it is longer than the input (`outlen > inlen`), in which case the
wrapper reports `NotCompressible`. -/
def compress (arr : List Nat) : Except Error (List Nat) :=
  if arr.length < (compressRaw arr).length then Except.error Error.NotCompressible
  else Except.ok (compressRaw arr)

/-- Modelled from the spec: the effect of one instruction on the produced
output — a literal run appends its bytes, a match performs the backward
copy. -/
def execInstr (out : List Nat) : Instr → List Nat
  | Instr.lit bs => out ++ bs
  | Instr.mat d l => matchCopy out d l

/-- Modelled from the spec: the effect of a whole instruction list on the
produced output. -/
def execAll (out : List Nat) (instrs : List Instr) : List Nat :=
  instrs.foldl execInstr out

/-- Number of output bytes one instruction produces. -/
def instrGrow : Instr → Nat
  | Instr.lit bs => bs.length
  | Instr.mat _ l => l

/-- Well-formedness of a single instruction as the encoder emits it:
literal runs are nonempty, matches have distance between 1 and the window
size and at least the minimum match length. -/
def wfInstr : Instr → Prop
  | Instr.lit bs => bs ≠ []
  | Instr.mat d l => 1 ≤ d ∧ 3 ≤ l ∧ d ≤ 65536

/-- Validity of an instruction list relative to the number of output bytes
already produced: every match looks back no further than the start of the
output (the history-window invariant of the spec's data model). -/
def validFrom : Nat → List Instr → Prop
  | _, [] => True
  | n, Instr.lit bs :: rest => bs ≠ [] ∧ validFrom (n + bs.length) rest
  | n, Instr.mat d l :: rest =>
    1 ≤ d ∧ d ≤ n ∧ 3 ≤ l ∧ d ≤ 65536 ∧ validFrom (n + l) rest

/-! ### List helper lemmas -/

theorem take_app_self (xs ys : List Nat) : (xs ++ ys).take xs.length = xs := by
  induction xs with
  | nil => rfl
  | cons x xs ih => simp [ih]

theorem drop_app_self (xs ys : List Nat) : (xs ++ ys).drop xs.length = ys := by
  induction xs with
  | nil => rfl
  | cons x xs ih => simp [ih]

theorem take_app_le (k : Nat) (xs ys : List Nat) (h : k ≤ xs.length) :
    (xs ++ ys).take k = xs.take k := by
  induction xs generalizing k with
  | nil => simp at h; simp [h]
  | cons x xs ih =>
    cases k with
    | zero => rfl
    | succ k =>
      simp only [List.length_cons, Nat.add_le_add_iff_right] at h
      simp only [List.cons_append, List.take_succ_cons]
      rw [ih k h]

theorem take_app_ge (k : Nat) (xs ys : List Nat) (h : xs.length ≤ k) :
    (xs ++ ys).take k = xs ++ ys.take (k - xs.length) := by
  induction xs generalizing k with
  | nil => simp
  | cons x xs ih =>
    cases k with
    | zero => simp at h
    | succ k => simp at h; simp [ih k h]

theorem getD_take (arr : List Nat) (i j : Nat) (h : j < i) :
    (arr.take i).getD j 0 = arr.getD j 0 := by
  induction arr generalizing i j with
  | nil => simp
  | cons x xs ih =>
    cases i with
    | zero => omega
    | succ i =>
      cases j with
      | zero => rfl
      | succ j => simpa [List.getD] using ih i j (by omega)

theorem take_concat (arr : List Nat) (i : Nat) (h : i < arr.length) :
    arr.take i ++ [arr.getD i 0] = arr.take (i + 1) := by
  induction arr generalizing i with
  | nil => simp at h
  | cons x xs ih =>
    cases i with
    | zero => rfl
    | succ i => simpa [List.getD] using ih i (by simpa using h)

theorem take_add_take (arr : List Nat) (a b : Nat) (h : a ≤ b) :
    arr.take a ++ (arr.drop a).take (b - a) = arr.take b := by
  induction arr generalizing a b with
  | nil => simp
  | cons x xs ih =>
    cases a with
    | zero => simp
    | succ a =>
      cases b with
      | zero => omega
      | succ b => simpa using ih a b (by omega)

theorem getD_replicate (n a j : Nat) (h : j < n) :
    (List.replicate n a).getD j 0 = a := by
  induction n generalizing j with
  | zero => omega
  | succ n ih =>
    cases j with
    | zero => rfl
    | succ j => simpa [List.replicate, List.getD] using ih j (by omega)

/-! ### Length-extension encoding lemmas -/

theorem encExt_step (k : Nat) : encExt (k + 255) = 255 :: encExt k := by
  have h1 : (k + 255) / 255 = k / 255 + 1 := by omega
  have h2 : (k + 255) % 255 = k % 255 := by omega
  simp [encExt, h1, h2, List.replicate_succ]

theorem length_encExt (k : Nat) : (encExt k).length = k / 255 + 1 := by
  simp [encExt]

theorem decExt_encExt (k : Nat) : ∀ rest : List Nat, decExt (encExt k ++ rest) = some (k, rest) := by
  induction k using Nat.strong_induction_on with
  | _ k ih =>
    intro rest
    by_cases h : k < 255
    · have he : encExt k = [k] := by
        have h0 : k / 255 = 0 := by omega
        have h1 : k % 255 = k := by omega
        simp [encExt, h0, h1]
      rw [he]
      simp [decExt, show ¬ k = 255 from by omega]
    · obtain ⟨k', rfl⟩ : ∃ k', k = k' + 255 := ⟨k - 255, by omega⟩
      rw [encExt_step]
      simp [decExt, ih k' (by omega) rest]

theorem decExt_replicate (c : Nat) : decExt (List.replicate c 255) = none := by
  induction c with
  | zero => rfl
  | succ c ih => simp [List.replicate_succ, decExt, ih]

/-! ### matchCopy lemmas -/

theorem length_matchCopy : ∀ (l : Nat) (out : List Nat) (d : Nat),
    (matchCopy out d l).length = out.length + l := by
  intro l
  induction l with
  | zero => intro out d; rfl
  | succ l ih =>
    intro out d
    rw [matchCopy, ih]
    simp
    omega

theorem matchCopy_take (arr : List Nat) : ∀ (l i d : Nat), 1 ≤ d → d ≤ i →
    i + l ≤ arr.length →
    (∀ j, j < l → arr.getD (i - d + j) 0 = arr.getD (i + j) 0) →
    matchCopy (arr.take i) d l = arr.take (i + l) := by
  intro l
  induction l with
  | zero => intro i d _ _ _ _; rfl
  | succ l ih =>
    intro i d hd1 hdi hlen hagree
    rw [matchCopy]
    have hi : i < arr.length := by omega
    have hlt : (arr.take i).length = i := by
      simp [List.length_take]
      omega
    have hsrc : (arr.take i).getD ((arr.take i).length - d) 0 = arr.getD i 0 := by
      rw [hlt, getD_take arr i (i - d) (by omega)]
      have := hagree 0 (by omega)
      simpa using this
    rw [hsrc, take_concat arr i hi]
    have := ih (i + 1) d hd1 (by omega) (by omega) (by
      intro j hj
      have := hagree (j + 1) (by omega)
      have heq : i - d + (j + 1) = i + 1 - d + j := by omega
      rw [heq] at this
      have heq2 : i + (j + 1) = i + 1 + j := by omega
      rw [heq2] at this
      exact this)
    rw [this]
    congr 1
    omega

theorem decode_lit_short (f t : Nat) (ins1 out : List Nat) (exp : Nat)
    (h1 : 1 ≤ t) (h15 : t ≤ 15) (hin : t ≤ ins1.length) (hout : out.length + t ≤ exp) :
    decodeLoop (f + 1) (t :: ins1) out exp
      = decodeLoop f (ins1.drop t) (out ++ ins1.take t) exp := by
  simp only [decodeLoop]
  rw [if_neg (by omega : ¬ t = 16)]
  rw [if_pos h15]
  rw [if_neg (by omega : ¬ t = 0)]
  simp only []
  rw [if_neg (by omega : ¬ ins1.length < t)]
  rw [if_neg (by omega : ¬ exp < out.length + t)]

theorem decode_lit_long (f e : Nat) (ins1 out : List Nat) (exp : Nat)
    (hin : 16 + e ≤ ins1.length) (hout : out.length + (16 + e) ≤ exp) :
    decodeLoop (f + 1) (0 :: (encExt e ++ ins1)) out exp
      = decodeLoop f (ins1.drop (16 + e)) (out ++ ins1.take (16 + e)) exp := by
  simp only [decodeLoop]
  rw [if_pos (trivial : True)]
  rw [decExt_encExt]
  simp only [Option.map_some']
  rw [if_neg (by omega : ¬ ins1.length < 16 + e)]
  rw [if_neg (by omega : ¬ exp < out.length + (16 + e))]
  simp

theorem decode_mat_short (f t b2 : Nat) (rest out : List Nat) (exp : Nat)
    (h : 64 ≤ t ∧ t ≤ 111) (hlb : 1 + (t - 64) % 8 + 8 * b2 ≤ out.length)
    (hout : out.length + ((t - 64) / 8 + 3) ≤ exp) :
    decodeLoop (f + 1) (t :: b2 :: rest) out exp
      = decodeLoop f rest (matchCopy out (1 + (t - 64) % 8 + 8 * b2) ((t - 64) / 8 + 3)) exp := by
  simp only [decodeLoop]
  rw [if_neg (by omega : ¬ t = 16)]
  rw [if_neg (by omega : ¬ t ≤ 15)]
  rw [if_neg (by omega : ¬ t = 32)]
  rw [if_pos h]
  rw [if_neg (by omega : ¬ out.length < 1 + (t - 64) % 8 + 8 * b2)]
  rw [if_neg (by omega : ¬ exp < out.length + ((t - 64) / 8 + 3))]

theorem decode_mat_long (f e lo hi : Nat) (rest out : List Nat) (exp : Nat)
    (hlb : 1 + lo + 256 * hi ≤ out.length) (hout : out.length + (e + 3) ≤ exp) :
    decodeLoop (f + 1) (32 :: (encExt e ++ (lo :: hi :: rest))) out exp
      = decodeLoop f rest (matchCopy out (1 + lo + 256 * hi) (e + 3)) exp := by
  simp only [decodeLoop]
  rw [if_pos (trivial : True)]
  rw [decExt_encExt]
  simp only []
  rw [if_neg (by omega : ¬ out.length < 1 + lo + 256 * hi)]
  rw [if_neg (by omega : ¬ exp < out.length + (e + 3))]
  simp

theorem decode_endMark (f : Nat) (out : List Nat) (exp : Nat) (h : out.length = exp) :
    decodeLoop (f + 1) endMark out exp = Except.ok out := by
  simp only [endMark, decodeLoop]
  simp [h]

/-! ### Serialization and execution basics -/

theorem serialize_nil : serialize [] = endMark := by
  simp [serialize]

theorem serialize_cons (i : Instr) (rest : List Instr) :
    serialize (i :: rest) = serInstr i ++ serialize rest := by
  simp [serialize]

theorem length_serInstr_pos (i : Instr) : 1 ≤ (serInstr i).length := by
  cases i with
  | lit bs =>
    by_cases h : bs.length ≤ 15 <;> simp [serInstr, h]
  | mat d l =>
    by_cases h : 3 ≤ l ∧ l ≤ 8 ∧ d ≤ 2048 <;> simp [serInstr, h]

theorem length_serialize_ge (instrs : List Instr) :
    instrs.length ≤ (serialize instrs).length := by
  induction instrs with
  | nil => simp [serialize_nil, endMark]
  | cons i rest ih =>
    rw [serialize_cons]
    have := length_serInstr_pos i
    simp only [List.length_cons, List.length_append]
    omega

theorem execAll_cons (out : List Nat) (i : Instr) (rest : List Instr) :
    execAll out (i :: rest) = execAll (execInstr out i) rest := rfl

theorem length_execInstr (out : List Nat) (i : Instr) :
    (execInstr out i).length = out.length + instrGrow i := by
  cases i with
  | lit bs => simp [execInstr, instrGrow]
  | mat d l => simp [execInstr, instrGrow, length_matchCopy]

theorem length_le_execAll (instrs : List Instr) :
    ∀ out : List Nat, out.length ≤ (execAll out instrs).length := by
  induction instrs with
  | nil => intro out; exact Nat.le_refl _
  | cons i rest ih =>
    intro out
    rw [execAll_cons]
    have h1 := length_execInstr out i
    have h2 := ih (execInstr out i)
    omega

/-- Per-match side condition the decoder checks against the produced
output: the back-reference must stay inside the history window. -/
def matchOk (out : List Nat) : Instr → Prop
  | Instr.lit _ => True
  | Instr.mat d _ => d ≤ out.length

/-- Decoding one serialized instruction whose checks pass consumes exactly
the instruction's bytes and one fuel unit, and extends the output by the
instruction's effect. -/
theorem decode_step (i : Instr) (f : Nat) (rest out : List Nat) (exp : Nat)
    (hwf : wfInstr i) (hmo : matchOk out i) (hgrow : out.length + instrGrow i ≤ exp) :
    decodeLoop (f + 1) (serInstr i ++ rest) out exp
      = decodeLoop f rest (execInstr out i) exp := by
  cases i with
  | lit bs =>
    have hne : 1 ≤ bs.length := by
      cases bs with
      | nil => exact absurd rfl hwf
      | cons b bs => simp
    simp only [instrGrow] at hgrow
    by_cases hs : bs.length ≤ 15
    · simp only [serInstr, if_pos hs, List.cons_append]
      rw [decode_lit_short f bs.length (bs ++ rest) out exp hne hs
        (by simp) (by simpa using hgrow)]
      rw [take_app_self, drop_app_self]
      rfl
    · have h16 : 16 ≤ bs.length := by omega
      simp only [serInstr, if_neg hs, List.cons_append, List.append_assoc]
      have he : 16 + (bs.length - 16) = bs.length := by omega
      rw [decode_lit_long f (bs.length - 16) (bs ++ rest) out exp
        (by simp; omega) (by simp only [he]; simpa using hgrow)]
      rw [he, take_app_self, drop_app_self]
      rfl
  | mat d l =>
    obtain ⟨hd1, hl3, hdw⟩ := hwf
    simp only [matchOk] at hmo
    simp only [instrGrow] at hgrow
    by_cases hc : 3 ≤ l ∧ l ≤ 8 ∧ d ≤ 2048
    · obtain ⟨-, hl8, hd2048⟩ := hc
      have hm8 : (d - 1) % 8 < 8 := Nat.mod_lt _ (by omega)
      simp only [serInstr, if_pos (⟨hl3, hl8, hd2048⟩ : 3 ≤ l ∧ l ≤ 8 ∧ d ≤ 2048)]
      have ht : 64 ≤ 64 + (l - 3) * 8 + (d - 1) % 8 ∧ 64 + (l - 3) * 8 + (d - 1) % 8 ≤ 111 := by
        constructor <;> omega
      have hdeq : 1 + (64 + (l - 3) * 8 + (d - 1) % 8 - 64) % 8 + 8 * ((d - 1) / 8) = d := by
        omega
      have hleq : (64 + (l - 3) * 8 + (d - 1) % 8 - 64) / 8 + 3 = l := by
        omega
      have := decode_mat_short f (64 + (l - 3) * 8 + (d - 1) % 8) ((d - 1) / 8) rest out exp
        ht (by rw [hdeq]; exact hmo) (by rw [hleq]; exact hgrow)
      rw [hdeq, hleq] at this
      simpa [execInstr] using this
    · simp only [serInstr, if_neg hc, List.cons_append, List.append_assoc]
      have hdeq : 1 + (d - 1) % 256 + 256 * ((d - 1) / 256) = d := by omega
      have hleq : l - 3 + 3 = l := by omega
      have := decode_mat_long f (l - 3) ((d - 1) % 256) ((d - 1) / 256) rest out exp
        (by rw [hdeq]; exact hmo) (by rw [hleq]; exact hgrow)
      rw [hdeq, hleq] at this
      simpa [execInstr] using this

/-! ### Decoding a serialized valid instruction stream -/

theorem decode_serialize : ∀ (instrs : List Instr) (f : Nat) (out : List Nat) (exp : Nat),
    validFrom out.length instrs → (execAll out instrs).length = exp →
    instrs.length + 1 ≤ f →
    decodeLoop f (serialize instrs) out exp = Except.ok (execAll out instrs) := by
  intro instrs
  induction instrs with
  | nil =>
    intro f out exp hv hx hf
    obtain ⟨f, rfl⟩ : ∃ g, f = g + 1 := ⟨f - 1, by omega⟩
    rw [serialize_nil, decode_endMark f out exp (by simpa [execAll] using hx)]
    simp [execAll]
  | cons i rest ih =>
    intro f out exp hv hx hf
    obtain ⟨f, rfl⟩ : ∃ g, f = g + 1 := ⟨f - 1, by omega⟩
    rw [serialize_cons]
    have hgrow : out.length + instrGrow i ≤ exp := by
      rw [← hx, execAll_cons]
      have h1 := length_le_execAll rest (execInstr out i)
      have h2 := length_execInstr out i
      omega
    have hwf : wfInstr i := by
      cases i with
      | lit bs => exact hv.1
      | mat d l => exact ⟨hv.1, hv.2.2.1, hv.2.2.2.1⟩
    have hmo : matchOk out i := by
      cases i with
      | lit bs => trivial
      | mat d l => exact hv.2.1
    have hvr : validFrom (execInstr out i).length rest := by
      cases i with
      | lit bs =>
        rw [length_execInstr]
        simpa [instrGrow] using hv.2
      | mat d l =>
        rw [length_execInstr]
        simpa [instrGrow] using hv.2.2.2.2
    rw [decode_step i f (serialize rest) out exp hwf hmo hgrow]
    rw [execAll_cons]
    refine ih f (execInstr out i) exp hvr (by rw [← hx, execAll_cons]) ?_
    simp only [List.length_cons] at hf
    omega

/-! ### A successful decode produces exactly the expected length -/

theorem decodeLoop_ok_length : ∀ (f : Nat) (ins out : List Nat) (exp : Nat) (res : List Nat),
    decodeLoop f ins out exp = Except.ok res → res.length = exp := by
  intro f
  induction f with
  | zero =>
    intro ins out exp res h
    simp [decodeLoop] at h
  | succ f ih =>
    intro ins out exp res h
    match ins with
    | [] => simp [decodeLoop] at h
    | t :: ins1 =>
      simp only [decodeLoop] at h
      repeat' split at h
      all_goals first
        | exact ih _ _ _ _ h
        | (cases h; assumption)
        | cases h

/-! ### Match-finder correctness -/

theorem findPrevAux_spec (arr : List Nat) (i : Nat) : ∀ q p, findPrevAux arr i q = some p →
    p ≤ q ∧ matchAt arr p i ∧ i - p ≤ 65536 := by
  intro q
  induction q with
  | zero =>
    intro p h
    rw [findPrevAux] at h
    split at h
    · cases h
      rename_i hc
      exact ⟨Nat.le_refl _, hc.1, by omega⟩
    · cases h
  | succ q ih =>
    intro p h
    rw [findPrevAux] at h
    split at h
    · cases h
      rename_i hc
      exact ⟨Nat.le_refl _, hc.1, hc.2⟩
    · have := ih p h
      exact ⟨by omega, this.2.1, this.2.2⟩

theorem extLen_spec (arr : List Nat) (p i : Nat) : ∀ (f k : Nat),
    k ≤ extLen arr p i k f ∧
      ∀ m, k ≤ m → m < extLen arr p i k f →
        i + 3 + m < arr.length ∧ arr.getD (p + 3 + m) 0 = arr.getD (i + 3 + m) 0 := by
  intro f
  induction f with
  | zero =>
    intro k
    refine ⟨Nat.le_refl _, ?_⟩
    intro m h1 h2
    rw [extLen] at h2
    omega
  | succ f ih =>
    intro k
    by_cases hc : i + 3 + k < arr.length ∧ arr.getD (p + 3 + k) 0 = arr.getD (i + 3 + k) 0
    · rw [show extLen arr p i k (f + 1) = extLen arr p i (k + 1) f from by
        rw [extLen, if_pos hc]]
      obtain ⟨h1, h2⟩ := ih (k + 1)
      refine ⟨by omega, ?_⟩
      intro m hm1 hm2
      rcases Nat.eq_or_lt_of_le hm1 with heq | hlt
      · rw [← heq]; exact hc
      · exact h2 m (by omega) hm2
    · rw [show extLen arr p i k (f + 1) = k from by rw [extLen, if_neg hc]]
      exact ⟨Nat.le_refl _, fun m hm1 hm2 => by omega⟩

theorem findMatch_spec (arr : List Nat) (i d l : Nat) (h3 : i + 3 ≤ arr.length)
    (h : findMatch arr i = some (d, l)) :
    1 ≤ d ∧ d ≤ i ∧ d ≤ 65536 ∧ 3 ≤ l ∧ i + l ≤ arr.length ∧
      ∀ j, j < l → arr.getD (i - d + j) 0 = arr.getD (i + j) 0 := by
  match i with
  | 0 => simp [findMatch] at h
  | j + 1 =>
    simp only [findMatch] at h
    cases hfp : findPrevAux arr (j + 1) j with
    | none => rw [hfp] at h; cases h
    | some p =>
      rw [hfp] at h
      simp only [Option.map_some'] at h
      have hd : j + 1 - p = d := by
        have := congrArg (fun pr => (Option.map Prod.fst pr).getD 0) h
        simpa using this
      have hl : 3 + extLen arr p (j + 1) 0 arr.length = l := by
        have := congrArg (fun pr => (Option.map Prod.snd pr).getD 0) h
        simpa using this
      obtain ⟨hpq, hma, hwin⟩ := findPrevAux_spec arr (j + 1) j p hfp
      obtain ⟨hk0, hall⟩ := extLen_spec arr p (j + 1) arr.length 0
      refine ⟨by omega, by omega, by omega, by omega, ?_, ?_⟩
      · by_cases hr : extLen arr p (j + 1) 0 arr.length = 0
        · omega
        · have := hall (extLen arr p (j + 1) 0 arr.length - 1) (by omega) (by omega)
          omega
      · intro jj hjj
        have hip : j + 1 - d = p := by omega
        rcases Nat.lt_or_ge jj 3 with hin3 | hin3
        · interval_cases jj
          · simpa [hip] using hma.1
          · simpa [hip] using hma.2.1
          · simpa [hip] using hma.2.2
        · obtain ⟨m, rfl⟩ : ∃ m, jj = 3 + m := ⟨jj - 3, by omega⟩
          have hm := hall m (by omega) (by omega)
          have e1 : j + 1 - d + (3 + m) = p + 3 + m := by omega
          have e2 : j + 1 + (3 + m) = j + 1 + 3 + m := by omega
          rw [e1, e2]
          exact hm.2

/-! ### Flushing literal runs -/

theorem execAll_flushLit (arr : List Nat) (a b : Nat) (rest : List Instr)
    (hab : a ≤ b) :
    execAll (arr.take a) (flushLit arr a b ++ rest) = execAll (arr.take b) rest := by
  by_cases h : a < b
  · simp only [flushLit, if_pos h, List.cons_append, List.nil_append]
    rw [execAll_cons]
    simp only [execInstr]
    rw [take_add_take arr a b hab]
  · have heq : a = b := by omega
    subst heq
    simp [flushLit]

theorem validFrom_flushLit (arr : List Nat) (a b : Nat) (rest : List Instr)
    (hab : a ≤ b) (hb : b ≤ arr.length) (hrest : validFrom b rest) :
    validFrom a (flushLit arr a b ++ rest) := by
  by_cases h : a < b
  · simp only [flushLit, if_pos h, List.cons_append, List.nil_append]
    have hlen : ((arr.drop a).take (b - a)).length = b - a := by
      simp [List.length_take, List.length_drop]
      omega
    simp only [validFrom]
    refine ⟨?_, ?_⟩
    · intro hnil
      rw [hnil] at hlen
      simp at hlen
      omega
    · rw [hlen, show a + (b - a) = b from by omega]
      exact hrest
  · have heq : a = b := by omega
    subst heq
    simpa [flushLit] using hrest

/-! ### The encoder scan produces a valid stream that executes to the input -/

theorem scan_spec (arr : List Nat) : ∀ (f i l0 : Nat), l0 ≤ i → i ≤ arr.length →
    arr.length - i < f →
    validFrom l0 (scanF arr f i l0) ∧
      execAll (arr.take l0) (scanF arr f i l0) = arr := by
  intro f
  induction f with
  | zero =>
    intro i l0 h1 h2 h3
    omega
  | succ f ih =>
    intro i l0 h1 h2 h3
    by_cases hi : i < arr.length
    · by_cases hi3 : i + 3 ≤ arr.length
      · cases hfm : findMatch arr i with
        | none =>
          rw [show scanF arr (f + 1) i l0 = scanF arr f (i + 1) l0 from by
            rw [scanF, if_pos hi, if_pos hi3, hfm]]
          exact ih (i + 1) l0 (by omega) (by omega) (by omega)
        | some dl =>
          obtain ⟨d, l⟩ := dl
          obtain ⟨hd1, hdi, hdw, hl3, hil, hagree⟩ := findMatch_spec arr i d l hi3 hfm
          rw [show scanF arr (f + 1) i l0
              = flushLit arr l0 i ++ (Instr.mat d l :: scanF arr f (i + l) (i + l)) from by
            rw [scanF, if_pos hi, if_pos hi3, hfm]]
          obtain ⟨ihv, ihx⟩ := ih (i + l) (i + l) (Nat.le_refl _) (by omega) (by omega)
          constructor
          · apply validFrom_flushLit arr l0 i _ h1 (by omega)
            simp only [validFrom]
            exact ⟨hd1, hdi, hl3, hdw, ihv⟩
          · rw [execAll_flushLit arr l0 i _ h1]
            rw [execAll_cons]
            simp only [execInstr]
            rw [matchCopy_take arr l i d hd1 hdi hil hagree]
            exact ihx
      · rw [show scanF arr (f + 1) i l0 = scanF arr f (i + 1) l0 from by
          rw [scanF, if_pos hi, if_neg hi3]]
        exact ih (i + 1) l0 (by omega) (by omega) (by omega)
    · rw [show scanF arr (f + 1) i l0 = flushLit arr l0 arr.length from by
        rw [scanF, if_neg hi]]
      have hflush := validFrom_flushLit arr l0 arr.length [] (by omega) (Nat.le_refl _)
        (by simp [validFrom])
      have hexec := execAll_flushLit arr l0 arr.length [] (by omega)
      constructor
      · simpa using hflush
      · simpa [execAll, List.take_length] using hexec

theorem compressRaw_spec (arr : List Nat) :
    validFrom 0 (scanF arr (arr.length + 1) 0 0) ∧
      execAll [] (scanF arr (arr.length + 1) 0 0) = arr := by
  have := scan_spec arr (arr.length + 1) 0 0 (Nat.le_refl _) (by omega) (by omega)
  simpa using this

/-- Claim C1: for every byte sequence B such that `compress B` succeeds
with compressed stream C, `decompress C (len B)` succeeds and returns
exactly B — compress followed by decompress with the original length is the
identity. -/
theorem compress_decompress_roundtrip (B : List Nat) (hB : ∀ b ∈ B, b < 256)
    (C : List Nat) (hC : compress B = Except.ok C) :
    decompress C B.length = Except.ok B := by
  have hCr : C = compressRaw B := by
    unfold compress at hC
    split at hC
    · cases hC
    · cases hC; rfl
  subst hCr
  obtain ⟨hv, hx⟩ := compressRaw_spec B
  have hlen : (execAll [] (scanF B (B.length + 1) 0 0)).length = B.length := by rw [hx]
  have hfuel : (scanF B (B.length + 1) 0 0).length + 1 ≤ (compressRaw B).length + 1 := by
    have := length_serialize_ge (scanF B (B.length + 1) 0 0)
    unfold compressRaw
    omega
  have hd := decode_serialize (scanF B (B.length + 1) 0 0) ((compressRaw B).length + 1)
    [] B.length (by simpa using hv) hlen hfuel
  rw [hx] at hd
  exact hd

/-- Witness for C1 at a concrete compressible input. -/
theorem compress_decompress_roundtrip_witness :
    decompress [1, 7, 32, 36, 0, 0, 16, 0, 0] (List.replicate 40 7).length
      = Except.ok (List.replicate 40 7) :=
  compress_decompress_roundtrip (List.replicate 40 7) (by decide)
    [1, 7, 32, 36, 0, 0, 16, 0, 0] rfl

/-- Claim C3: whenever `decompress` succeeds, the returned byte sequence
has exactly the caller-declared expected length. -/
theorem decompress_ok_length (ins : List Nat) (n : Nat) (out : List Nat)
    (h : decompress ins n = Except.ok out) : out.length = n :=
  decodeLoop_ok_length (ins.length + 1) ins [] n out h

/-- Witness for C3 at a concrete stream. -/
theorem decompress_ok_length_witness : ([55] : List Nat).length = 1 :=
  decompress_ok_length [1, 55, 16, 0, 0] 1 [55] rfl

/-! ### Truncated streams are rejected with an input overrun -/

theorem take_replicate_le (k c a : Nat) (h : k ≤ c) :
    (List.replicate c a).take k = List.replicate k a := by
  induction c generalizing k with
  | zero =>
    have hk0 : k = 0 := by omega
    subst hk0
    simp
  | succ c ih =>
    cases k with
    | zero => simp
    | succ k => simp [List.replicate_succ, ih k (by omega)]

theorem decode_trunc (i : Instr) (f k : Nat) (out : List Nat) (exp : Nat)
    (hwf : wfInstr i) (hk : k < (serInstr i).length) :
    decodeLoop (f + 1) ((serInstr i).take k) out exp = Except.error Error.InputOverrun := by
  cases i with
  | lit bs =>
    have hne : 1 ≤ bs.length := by
      cases bs with
      | nil => exact absurd rfl hwf
      | cons b bs => simp
    by_cases hs : bs.length ≤ 15
    · simp only [serInstr, if_pos hs] at hk ⊢
      cases k with
      | zero => simp [decodeLoop]
      | succ k =>
        simp only [List.length_cons] at hk
        simp only [List.take_succ_cons, decodeLoop]
        rw [if_neg (by omega : ¬ bs.length = 16)]
        rw [if_pos hs]
        rw [if_neg (by omega : ¬ bs.length = 0)]
        have hlen : (bs.take k).length = k := by
          simp [List.length_take]
          omega
        simp only []
        rw [if_pos (show (bs.take k).length < bs.length from by rw [hlen]; omega)]
    · simp only [serInstr, if_neg hs] at hk ⊢
      cases k with
      | zero => simp [decodeLoop]
      | succ k =>
        simp only [List.length_cons, List.length_append, length_encExt] at hk
        simp only [List.take_succ_cons, decodeLoop]
        rcases Nat.lt_or_ge k ((bs.length - 16) / 255 + 1) with hkc | hkc
        · have htake : (encExt (bs.length - 16) ++ bs).take k = List.replicate k 255 := by
            rw [encExt, List.append_assoc]
            rw [take_app_le k _ _ (by simp only [List.length_replicate]; omega)]
            exact take_replicate_le k _ 255 (by omega)
          rw [if_pos (trivial : True), htake, decExt_replicate]
          simp
        · have htake : (encExt (bs.length - 16) ++ bs).take k
              = encExt (bs.length - 16) ++ bs.take (k - ((bs.length - 16) / 255 + 1)) := by
            rw [take_app_ge k _ _ (by simp only [length_encExt]; omega)]
            rw [length_encExt]
          rw [if_pos (trivial : True), htake, decExt_encExt]
          simp only [Option.map_some']
          have hlen2 : (bs.take (k - ((bs.length - 16) / 255 + 1))).length
              = k - ((bs.length - 16) / 255 + 1) := by
            simp [List.length_take]
            omega
          rw [if_pos (show (bs.take (k - ((bs.length - 16) / 255 + 1))).length
              < 16 + (bs.length - 16) from by rw [hlen2]; omega)]
          simp
  | mat d l =>
    obtain ⟨hd1, hl3, hdw⟩ := hwf
    by_cases hc : 3 ≤ l ∧ l ≤ 8 ∧ d ≤ 2048
    · simp only [serInstr, if_pos hc] at hk ⊢
      obtain ⟨-, hl8, -⟩ := hc
      have hm8 : (d - 1) % 8 < 8 := Nat.mod_lt _ (by omega)
      simp only [List.length_cons, List.length_nil] at hk
      match k, hk with
      | 0, _ => simp [decodeLoop]
      | 1, _ =>
        simp only [List.take_succ_cons, List.take_zero, decodeLoop]
        rw [if_neg (by omega : ¬ 64 + (l - 3) * 8 + (d - 1) % 8 = 16)]
        rw [if_neg (by omega : ¬ 64 + (l - 3) * 8 + (d - 1) % 8 ≤ 15)]
        rw [if_neg (by omega : ¬ 64 + (l - 3) * 8 + (d - 1) % 8 = 32)]
        rw [if_pos (show 64 ≤ 64 + (l - 3) * 8 + (d - 1) % 8
            ∧ 64 + (l - 3) * 8 + (d - 1) % 8 ≤ 111 from by constructor <;> omega)]
    · simp only [serInstr, if_neg hc] at hk ⊢
      cases k with
      | zero => simp [decodeLoop]
      | succ k =>
        simp only [List.length_cons, List.length_append, length_encExt] at hk
        simp only [List.take_succ_cons, decodeLoop]
        rcases Nat.lt_or_ge k ((l - 3) / 255 + 1) with hkc | hkc
        · have htake : (encExt (l - 3) ++ [(d - 1) % 256, (d - 1) / 256]).take k
              = List.replicate k 255 := by
            rw [encExt, List.append_assoc]
            rw [take_app_le k _ _ (by simp only [List.length_replicate]; omega)]
            exact take_replicate_le k _ 255 (by omega)
          rw [if_pos (trivial : True), htake, decExt_replicate]
          simp
        · have htake : (encExt (l - 3) ++ [(d - 1) % 256, (d - 1) / 256]).take k
              = encExt (l - 3)
                ++ ([(d - 1) % 256, (d - 1) / 256].take (k - ((l - 3) / 255 + 1))) := by
            rw [take_app_ge k _ _ (by simp only [length_encExt]; omega)]
            rw [length_encExt]
          rw [if_pos (trivial : True), htake, decExt_encExt]
          rcases (show k - ((l - 3) / 255 + 1) = 0 ∨ k - ((l - 3) / 255 + 1) = 1 from by
            simp only [List.length_cons, List.length_nil] at hk; omega) with hj | hj
          · rw [hj]
            simp
          · rw [hj]
            simp

theorem decode_truncated : ∀ (instrs : List Instr) (f : Nat) (out : List Nat) (exp k : Nat),
    validFrom out.length instrs → (execAll out instrs).length = exp →
    k < (serialize instrs).length → k + 1 ≤ f →
    decodeLoop f ((serialize instrs).take k) out exp = Except.error Error.InputOverrun := by
  intro instrs
  induction instrs with
  | nil =>
    intro f out exp k hv hx hk hf
    rw [serialize_nil] at hk ⊢
    obtain ⟨f, rfl⟩ : ∃ g, f = g + 1 := ⟨f - 1, by omega⟩
    simp only [endMark, List.length_cons, List.length_nil] at hk
    interval_cases k
    · simp [endMark, decodeLoop]
    · simp [endMark, decodeLoop]
    · simp [endMark, decodeLoop]
  | cons i rest ih =>
    intro f out exp k hv hx hk hf
    rw [serialize_cons] at hk ⊢
    have hgrow : out.length + instrGrow i ≤ exp := by
      rw [← hx, execAll_cons]
      have h1 := length_le_execAll rest (execInstr out i)
      have h2 := length_execInstr out i
      omega
    have hwf : wfInstr i := by
      cases i with
      | lit bs => exact hv.1
      | mat d l => exact ⟨hv.1, hv.2.2.1, hv.2.2.2.1⟩
    have hmo : matchOk out i := by
      cases i with
      | lit bs => trivial
      | mat d l => exact hv.2.1
    have hvr : validFrom (execInstr out i).length rest := by
      cases i with
      | lit bs =>
        rw [length_execInstr]
        simpa [instrGrow] using hv.2
      | mat d l =>
        rw [length_execInstr]
        simpa [instrGrow] using hv.2.2.2.2
    obtain ⟨f, rfl⟩ : ∃ g, f = g + 1 := ⟨f - 1, by omega⟩
    rcases Nat.lt_or_ge k (serInstr i).length with hki | hki
    · rw [take_app_le k _ _ (by omega)]
      exact decode_trunc i f k out exp hwf hki
    · rw [take_app_ge k _ _ hki]
      rw [decode_step i f _ out exp hwf hmo hgrow]
      refine ih f (execInstr out i) exp (k - (serInstr i).length) hvr
        (by rw [← hx, execAll_cons]) ?_ ?_
      · simp only [List.length_append] at hk
        omega
      · have := length_serInstr_pos i
        omega

/-- Claim C5: decompressing any proper prefix of a stream produced by
`compress`, against the original input's length, is rejected with
`InputOverrun` — in particular it never succeeds with wrong output, and
within this model the decoder cannot touch any byte past the truncation
point, since the truncated stream is all it receives. -/
theorem decompress_truncated (B C : List Nat) (hC : compress B = Except.ok C)
    (k : Nat) (hk : k < C.length) :
    decompress (C.take k) B.length = Except.error Error.InputOverrun := by
  have hCr : C = compressRaw B := by
    unfold compress at hC
    split at hC
    · cases hC
    · cases hC; rfl
  subst hCr
  obtain ⟨hv, hx⟩ := compressRaw_spec B
  unfold compressRaw at hk ⊢
  unfold decompress
  rw [show ((serialize (scanF B (B.length + 1) 0 0)).take k).length = k from by
    simp only [List.length_take]
    omega]
  exact decode_truncated (scanF B (B.length + 1) 0 0) (k + 1) [] B.length k
    (by simpa using hv) (by rw [hx]) hk (Nat.le_refl _)

/-- Witness for C5: a concrete truncation of a concrete compressed
stream. -/
theorem decompress_truncated_witness :
    decompress (([1, 7, 32, 36, 0, 0, 16, 0, 0] : List Nat).take 4)
      (List.replicate 40 7).length = Except.error Error.InputOverrun :=
  decompress_truncated (List.replicate 40 7) [1, 7, 32, 36, 0, 0, 16, 0, 0] rfl 4 (by decide)

/-! ### Wrapper result policy (claims C2, C7, C9, C10) -/

/-- Counterexample to claim C2 as stated: the input `[1,2,3,1,2,3,1,2,3]`
compresses to a stream of exactly the input's length (not strictly
shorter), yet `compress` returns `Ok` rather than `NotCompressible`,
because the wrapper only rejects streams strictly longer than the input. -/
theorem compress_ok_equal_length :
    compress [1, 2, 3, 1, 2, 3, 1, 2, 3] = Except.ok [3, 1, 2, 3, 90, 0, 16, 0, 0]
      ∧ ¬ ([3, 1, 2, 3, 90, 0, 16, 0, 0] : List Nat).length
          < ([1, 2, 3, 1, 2, 3, 1, 2, 3] : List Nat).length :=
  ⟨rfl, by decide⟩

/-- Claim C2 amended: `compress` returns `Ok C` only if `len C ≤ len B`,
and returns `NotCompressible` exactly when the resulting stream is strictly
longer than the input. -/
theorem compress_ok_length_le (B : List Nat) :
    (∀ C, compress B = Except.ok C → C.length ≤ B.length)
      ∧ (compress B = Except.error Error.NotCompressible
          ↔ B.length < (compressRaw B).length) := by
  constructor
  · intro C hC
    unfold compress at hC
    split at hC
    · cases hC
    · cases hC
      rename_i h
      omega
  · constructor
    · intro h
      unfold compress at h
      split at h
      · assumption
      · cases h
    · intro h
      unfold compress
      rw [if_pos h]

/-- Witness for the amended C2 at a concrete input. -/
theorem compress_ok_length_le_witness :
    ([3, 1, 2, 3, 90, 0, 16, 0, 0] : List Nat).length
      ≤ ([1, 2, 3, 1, 2, 3, 1, 2, 3] : List Nat).length :=
  (compress_ok_length_le [1, 2, 3, 1, 2, 3, 1, 2, 3]).1 [3, 1, 2, 3, 90, 0, 16, 0, 0] rfl

/-- The thirteen documented library return codes. -/
def codes13 : List Int := [-1, -2, -3, -4, -5, -6, -7, -8, -9, -10, -11, -12, -99]

/-- Claim C4: `Error.from_code` maps each of the thirteen return codes to
its own distinct failure kind, so the mapping is injective on that set and
no specific failure kind is coerced to another. -/
theorem from_code_table :
    (Error.from_code (-1) = Error.Error
      ∧ Error.from_code (-2) = Error.OutOfMemory
      ∧ Error.from_code (-3) = Error.NotCompressible
      ∧ Error.from_code (-4) = Error.InputOverrun
      ∧ Error.from_code (-5) = Error.OutputOverrun
      ∧ Error.from_code (-6) = Error.LookbehindOverrun
      ∧ Error.from_code (-7) = Error.EOFNotFound
      ∧ Error.from_code (-8) = Error.InputNotConsumed
      ∧ Error.from_code (-9) = Error.NotYetImplemented
      ∧ Error.from_code (-10) = Error.InvalidArgument
      ∧ Error.from_code (-11) = Error.InvalidAlignment
      ∧ Error.from_code (-12) = Error.OutputNotConsumed
      ∧ Error.from_code (-99) = Error.InternalError)
      ∧ (codes13.map Error.from_code).Nodup := by
  decide

/-- Claim C7: compressing the three-byte input `"foo"` (bytes 102, 111,
111) yields `NotCompressible` — the emitted stream is longer than the
input. -/
theorem compress_foo :
    compress [102, 111, 111] = Except.error Error.NotCompressible := rfl

/-- Claim C9: `compress` is deterministic — two invocations on equal
inputs return identical results.  In this purely functional model the
encoder carries no hidden state or randomness, so the result depends only
on the input bytes. -/
theorem compress_deterministic (B1 B2 : List Nat) (h : B1 = B2) :
    compress B1 = compress B2 :=
  congrArg compress h

/-- Witness for C9 at a concrete input. -/
theorem compress_deterministic_witness :
    compress [102, 111, 111] = compress [102, 111, 111] :=
  compress_deterministic [102, 111, 111] [102, 111, 111] rfl

/-- Claim C10: compressing the empty byte sequence emits only the
end-of-stream instruction, whose three bytes exceed the zero-length input,
so the wrapper reports `NotCompressible`. -/
theorem compress_empty :
    compressRaw [] = endMark ∧ 0 < (compressRaw []).length
      ∧ compress [] = Except.error Error.NotCompressible :=
  ⟨rfl, by decide, rfl⟩

/-- Claim C6: whenever decoding reaches a match instruction whose distance
exceeds the number of output bytes produced so far, the decoder rejects it
with `LookbehindOverrun`; the check precedes the copy, so in this model no
position before the start of the output is ever dereferenced. -/
theorem decode_lookbehind_overrun (f d l : Nat) (rest out : List Nat) (exp : Nat)
    (hd1 : 1 ≤ d) (hdw : d ≤ 65536) (hl3 : 3 ≤ l) (hout : out.length < d) :
    decodeLoop (f + 1) (serInstr (Instr.mat d l) ++ rest) out exp
      = Except.error Error.LookbehindOverrun := by
  by_cases hc : 3 ≤ l ∧ l ≤ 8 ∧ d ≤ 2048
  · obtain ⟨-, hl8, hd2048⟩ := hc
    have hm8 : (d - 1) % 8 < 8 := Nat.mod_lt _ (by omega)
    have hser : serInstr (Instr.mat d l)
        = [64 + (l - 3) * 8 + (d - 1) % 8, (d - 1) / 8] := by
      simp only [serInstr]
      rw [if_pos ⟨hl3, hl8, hd2048⟩]
    rw [hser]
    rw [show ([64 + (l - 3) * 8 + (d - 1) % 8, (d - 1) / 8] : List Nat) ++ rest
        = (64 + (l - 3) * 8 + (d - 1) % 8) :: ((d - 1) / 8 :: rest) from by simp]
    simp only [decodeLoop]
    rw [if_neg (by omega : ¬ 64 + (l - 3) * 8 + (d - 1) % 8 = 16)]
    rw [if_neg (by omega : ¬ 64 + (l - 3) * 8 + (d - 1) % 8 ≤ 15)]
    rw [if_neg (by omega : ¬ 64 + (l - 3) * 8 + (d - 1) % 8 = 32)]
    rw [if_pos (show 64 ≤ 64 + (l - 3) * 8 + (d - 1) % 8
        ∧ 64 + (l - 3) * 8 + (d - 1) % 8 ≤ 111 from by constructor <;> omega)]
    rw [if_pos (show out.length
        < 1 + (64 + (l - 3) * 8 + (d - 1) % 8 - 64) % 8 + 8 * ((d - 1) / 8) from by omega)]
  · have hser : serInstr (Instr.mat d l)
        = 32 :: (encExt (l - 3) ++ [(d - 1) % 256, (d - 1) / 256]) := by
      simp only [serInstr]
      rw [if_neg hc]
    rw [hser]
    rw [show (32 :: (encExt (l - 3) ++ [(d - 1) % 256, (d - 1) / 256])) ++ rest
        = 32 :: (encExt (l - 3) ++ ((d - 1) % 256 :: (d - 1) / 256 :: rest)) from by simp]
    simp only [decodeLoop]
    rw [decExt_encExt]
    have hcond : out.length < 1 + (d - 1) % 256 + 256 * ((d - 1) / 256) := by omega
    simp [hcond]

/-- Witness for C6: a match with distance 5 against an empty output. -/
theorem decode_lookbehind_overrun_witness :
    decodeLoop (0 + 1) (serInstr (Instr.mat 5 3) ++ []) [] 0
      = Except.error Error.LookbehindOverrun :=
  decode_lookbehind_overrun 0 5 3 [] [] 0 (by decide) (by decide) (by decide) (by decide)

/-! ### Compressing the all-zero 128 KiB buffer (claim C8) -/

theorem getD_replicate_zero (n x : Nat) : (List.replicate n (0 : Nat)).getD x 0 = 0 := by
  induction n generalizing x with
  | zero => simp
  | succ n ih =>
    cases x with
    | zero => rfl
    | succ x => simpa [List.replicate_succ, List.getD] using ih x

theorem extLen_replicate (n p i : Nat) : ∀ (f k : Nat), n - (i + 3 + k) ≤ f →
    extLen (List.replicate n 0) p i k f = k + (n - (i + 3 + k)) := by
  intro f
  induction f with
  | zero =>
    intro k h
    rw [extLen]
    omega
  | succ f ih =>
    intro k h
    by_cases hc : i + 3 + k < n
    · rw [show extLen (List.replicate n 0) p i k (f + 1)
          = extLen (List.replicate n 0) p i (k + 1) f from by
        rw [extLen, if_pos ⟨by simpa using hc,
          by rw [getD_replicate_zero, getD_replicate_zero]⟩]]
      rw [ih (k + 1) (by omega)]
      omega
    · rw [show extLen (List.replicate n 0) p i k (f + 1) = k from by
        rw [extLen, if_neg (fun hcc => absurd hcc.1 (by simpa using hc))]]
      omega

theorem findPrevAux_zeros (n : Nat) : findPrevAux (List.replicate n 0) 1 0 = some 0 := by
  rw [findPrevAux, if_pos]
  refine ⟨⟨?_, ?_, ?_⟩, by omega⟩
  · rw [getD_replicate_zero, getD_replicate_zero]
  · rw [getD_replicate_zero, getD_replicate_zero]
  · rw [getD_replicate_zero, getD_replicate_zero]

theorem findMatch_zeros (n : Nat) (h : 4 ≤ n) :
    findMatch (List.replicate n 0) 1 = some (1, n - 1) := by
  simp only [findMatch]
  rw [findPrevAux_zeros]
  simp only [Option.map_some']
  rw [show (List.replicate n (0 : Nat)).length = n from by simp]
  rw [extLen_replicate n 0 1 n 0 (by omega)]
  rw [show 3 + (0 + (n - (1 + 3 + 0))) = n - 1 from by omega]

theorem scanF_at_end (arr : List Nat) (f : Nat) :
    scanF arr f arr.length arr.length = [] := by
  cases f with
  | zero =>
    rw [scanF]
    simp [flushLit]
  | succ f =>
    rw [scanF, if_neg (Nat.lt_irrefl _)]
    simp [flushLit]

theorem scanF_zeros (n : Nat) (h : 4 ≤ n) (f : Nat) :
    scanF (List.replicate n 0) (f + 2) 0 0 = [Instr.lit [0], Instr.mat 1 (n - 1)] := by
  have hlen : (List.replicate n (0 : Nat)).length = n := by simp
  rw [show scanF (List.replicate n 0) (f + 2) 0 0 = scanF (List.replicate n 0) (f + 1) 1 0 from by
    rw [scanF]
    rw [if_pos (show (0 : Nat) < (List.replicate n (0 : Nat)).length from by rw [hlen]; omega)]
    rw [if_pos (show 0 + 3 ≤ (List.replicate n (0 : Nat)).length from by rw [hlen]; omega)]
    rw [show findMatch (List.replicate n 0) 0 = none from rfl]]
  rw [show scanF (List.replicate n 0) (f + 1) 1 0
      = flushLit (List.replicate n 0) 0 1
        ++ (Instr.mat 1 (n - 1) :: scanF (List.replicate n 0) f (1 + (n - 1)) (1 + (n - 1))) from by
    rw [scanF]
    rw [if_pos (show (1 : Nat) < (List.replicate n (0 : Nat)).length from by rw [hlen]; omega)]
    rw [if_pos (show 1 + 3 ≤ (List.replicate n (0 : Nat)).length from by rw [hlen]; omega)]
    rw [findMatch_zeros n h]]
  rw [show 1 + (n - 1) = n from by omega]
  rw [show scanF (List.replicate n 0) f n n = [] from by
    have := scanF_at_end (List.replicate n 0) f
    rwa [hlen] at this]
  rw [show flushLit (List.replicate n 0) 0 1 = [Instr.lit [0]] from by
    rw [flushLit, if_pos (by omega : (0 : Nat) < 1)]
    rw [List.drop_zero]
    rw [show (1 : Nat) - 0 = 1 from rfl]
    rw [take_replicate_le 1 n 0 (by omega)]
    rfl]
  rfl

/-- The stream the modelled encoder emits for 128 KiB of zero bytes: a
one-byte literal run, a long match of length 131071 at distance 1 whose
length extension occupies 514 bytes, and the end marker — 522 bytes in
all. -/
def c8stream : List Nat :=
  [1, 0, 32] ++ List.replicate 513 255 ++ [253, 0, 0, 16, 0, 0]

theorem length_c8stream : c8stream.length = 522 := by
  simp only [c8stream, List.length_append, List.length_replicate, List.length_cons,
    List.length_nil]

theorem compressRaw_zeros : compressRaw (List.replicate 131072 0) = c8stream := by
  unfold compressRaw
  rw [List.length_replicate]
  rw [show (131072 : Nat) + 1 = 131071 + 2 from by norm_num]
  rw [scanF_zeros 131072 (by omega) 131071]
  rw [serialize_cons, serialize_cons, serialize_nil]
  rw [show serInstr (Instr.lit [0]) = [1, 0] from by
    rw [serInstr]
    rfl]
  rw [show serInstr (Instr.mat 1 131071) = 32 :: (encExt 131068 ++ [0, 0]) from by
    rw [serInstr]
    rw [if_neg (by omega : ¬ (3 ≤ 131071 ∧ 131071 ≤ 8 ∧ 1 ≤ 2048))]]
  rw [show encExt 131068 = List.replicate 513 255 ++ [253] from by
    have h1 : (131068 : Nat) / 255 = 513 := by norm_num
    have h2 : (131068 : Nat) % 255 = 253 := by norm_num
    rw [encExt, h1, h2]]
  simp only [c8stream, endMark, List.cons_append, List.nil_append, List.append_assoc]

theorem compress_zeros : compress (List.replicate 131072 0) = Except.ok c8stream := by
  unfold compress
  rw [compressRaw_zeros]
  rw [if_neg (show ¬ (List.replicate 131072 (0 : Nat)).length < c8stream.length from by
    rw [List.length_replicate, length_c8stream]
    omega)]

set_option maxRecDepth 10000 in
theorem decompress_c8 : decompress c8stream 128 = Except.error Error.OutputOverrun := rfl

/-- Claim C8: the stream obtained by successfully compressing a 128 KiB
all-zero buffer, decompressed with a declared expected length of only 128,
is rejected with `OutputOverrun`. -/
theorem decompress_zeros_short_output (C : List Nat)
    (hC : compress (List.replicate (128 * 1024) 0) = Except.ok C) :
    decompress C 128 = Except.error Error.OutputOverrun := by
  rw [show (128 * 1024 : Nat) = 131072 from by norm_num] at hC
  rw [compress_zeros] at hC
  cases hC
  exact decompress_c8

/-- Witness for C8 at the concrete compressed stream. -/
theorem decompress_zeros_short_output_witness :
    decompress c8stream 128 = Except.error Error.OutputOverrun :=
  decompress_zeros_short_output c8stream
    (by rw [show (128 * 1024 : Nat) = 131072 from by norm_num]; exact compress_zeros)
